import Mathlib

/-!
Shallow embedding of the command-line Wordle solver (src/wordle.h, src/wordle.cpp)
and verification of its specification.

Modeling conventions:
* `std::string` words are `List Char`; a `Pattern` (C++ `int`, always non-negative
  here, two feedback bits per letter position) is a `Nat`; the C++ bitwise
  complement `~(3 << shift)` of a 32-bit two's-complement `int` is modeled as
  xor with `2 ^ 32 - 1`.
* Functions that can throw (`SetColor`/`GetColor` on an out-of-range index and
  everything that calls them) or abort on a failed `assert` return `Option`,
  `none` being the exceptional outcome.  Total "core" companions (`setC`,
  `getC`, `GPcore`, ...) compute the same values on the non-exceptional paths;
  bridge lemmas relate the two layers.
* `double` arithmetic (entropy values, the `CompareDouble` comparator) is
  modeled over `ℝ`; `std::map` keyed by entropy with the epsilon comparator is
  modeled as a key-sorted association list with ordered insertion, and the
  iteration-order-independent `unordered_map` counters as association lists in
  first-insertion order (Shannon entropy over `ℝ` does not depend on summation
  order).
* The `mt19937` random draw of the hidden word in `PlayRandomGame` becomes an
  explicit `wordToGuess` parameter constrained to lie in the dictionary, and
  `std::cin` becomes an explicit list of input tokens.
-/

/-! ### Data model -/

abbrev Word := List Char

abbrev Pattern := Nat

/-- Colors, from `enum { Gray = 0, Yellow = 1, Green = 2 }`; a 2-bit field can
also hold the unused code 3, so a color is modeled as a `Nat`. -/
abbrev Color := Nat

def Gray : Color := 0

def Yellow : Color := 1

def Green : Color := 2

/-! ### Pattern codec (wordle.cpp lines 44-65) -/

/-- The mask `3 << shift` with `shift = index * 2`, from `SetColor`. -/
def setMask (index : Nat) : Nat := 3 <<< (index * 2)

/-- The C++ expression `~(3 << shift)` on a 32-bit `int`, i.e. the bitwise
complement of `setMask` within 32 bits. -/
def setNotMask (index : Nat) : Nat := (2 ^ 32 - 1) ^^^ setMask index

/-- Core of `SetColor`: `p = (p & (~(3 << shift))) | (c << shift)`. -/
def setC (p : Pattern) (index : Nat) (c : Color) : Pattern :=
  (p &&& setNotMask index) ||| (c <<< (index * 2))

/-- Core of `GetColor`: `((p & (3 << shift)) >> shift) & 3` with `shift = 2 * index`. -/
def getC (p : Pattern) (index : Nat) : Color :=
  ((p &&& (3 <<< (2 * index))) >>> (2 * index)) &&& 3

/-- `SetColor(p, index, c)`: writes color `c` into the 2-bit field of position
`index`; throws `std::invalid_argument` (modeled as `none`) unless
`0 <= index <= 7`.  The index is a C++ `int`, modeled as `Int` because callers
pass `wordSize - 1 - i`. -/
def SetColor (p : Pattern) (index : Int) (c : Color) : Option Pattern :=
  if 0 ≤ index ∧ index ≤ 7 then some (setC p index.toNat c) else none

/-- `GetColor(p, index)`: reads the 2-bit field of position `index`; throws
(modeled as `none`) unless `0 <= index <= 7`. -/
def GetColor (p : Pattern) (index : Int) : Option Color :=
  if 0 ≤ index ∧ index ≤ 7 then some (getC p index.toNat) else none

/-! ### Feedback simulator `GeneratePattern` (wordle.cpp lines 67-105) -/

/-- Pointwise update of a frequency map, modeling `freq[c] = v` on
`unordered_map<char, int>` (missing keys read as 0). -/
def updF (f : Char → Int) (key : Char) (val : Int) : Char → Int :=
  fun x => if x = key then val else f x

/-- The frequency map of the actual word: `for (auto &c : other) freq[c]++;`. -/
def freqOf (other : Word) : Char → Int :=
  other.foldl (fun f c => updF f c (f c + 1)) (fun _ => 0)

/-- One iteration of the first (Green) pass of `GeneratePattern`, with the
exception of `SetColor` propagated. -/
def gpStep1 (guess other : Word) (wordSize : Nat) (st : Pattern × (Char → Int)) (i : Nat) :
    Option (Pattern × (Char → Int)) :=
  if guess.getD i 'A' = other.getD i 'A' then do
    let p' ← SetColor st.1 ((wordSize : Int) - 1 - i) Green
    pure (p', updF st.2 (guess.getD i 'A') (st.2 (guess.getD i 'A') - 1))
  else pure st

/-- One iteration of the second (Yellow/Gray) pass of `GeneratePattern`. -/
def gpStep2 (guess : Word) (wordSize : Nat) (st : Pattern × (Char → Int)) (i : Nat) :
    Option (Pattern × (Char → Int)) := do
  let c := guess.getD i 'A'
  let col ← GetColor st.1 ((wordSize : Int) - 1 - i)
  if col = Green then pure st
  else if st.2 c ≠ 0 then do
    let p' ← SetColor st.1 ((wordSize : Int) - 1 - i) Yellow
    pure (p', updF st.2 c (st.2 c - 1))
  else do
    let p' ← SetColor st.1 ((wordSize : Int) - 1 - i) Gray
    pure (p', st.2)

/-- `GeneratePattern(guess, other, wordSize)`: frequency count of `other`,
Green pass, then Yellow/Gray pass, each pass filling position
`wordSize - 1 - i` for the `i`-th letter of `guess`. -/
def GeneratePattern (guess other : Word) (wordSize : Nat) : Option Pattern := do
  let st1 ← (List.range guess.length).foldlM (gpStep1 guess other wordSize) (0, freqOf other)
  let st2 ← (List.range guess.length).foldlM (gpStep2 guess wordSize) st1
  pure st2.1

/-- Total core of `gpStep1` (indices in range, so no exception). -/
def gpStep1C (guess other : Word) (ws : Nat) (st : Pattern × (Char → Int)) (i : Nat) :
    Pattern × (Char → Int) :=
  if guess.getD i 'A' = other.getD i 'A' then
    (setC st.1 (ws - 1 - i) Green, updF st.2 (guess.getD i 'A') (st.2 (guess.getD i 'A') - 1))
  else st

/-- Total core of `gpStep2`. -/
def gpStep2C (guess : Word) (ws : Nat) (st : Pattern × (Char → Int)) (i : Nat) :
    Pattern × (Char → Int) :=
  let c := guess.getD i 'A'
  if getC st.1 (ws - 1 - i) = Green then st
  else if st.2 c ≠ 0 then (setC st.1 (ws - 1 - i) Yellow, updF st.2 c (st.2 c - 1))
  else (setC st.1 (ws - 1 - i) Gray, st.2)

/-- State after the first `m` iterations of the Green pass. -/
def gpPass1 (guess other : Word) (ws m : Nat) : Pattern × (Char → Int) :=
  (List.range m).foldl (gpStep1C guess other ws) (0, freqOf other)

/-- State after the first `m` iterations of the Yellow/Gray pass (run after the
full Green pass). -/
def gpPass2 (guess other : Word) (ws m : Nat) : Pattern × (Char → Int) :=
  (List.range m).foldl (gpStep2C guess ws) (gpPass1 guess other ws guess.length)

/-- Total core of `GeneratePattern`. -/
def GPcore (guess other : Word) (ws : Nat) : Pattern :=
  (gpPass2 guess other ws guess.length).1

/-- The all-Green pattern, built as in `PlayRandomGame`:
`for (int i = 0; i < wordSize; ++i) allGreen |= (2 << (i * 2));`. -/
def allGreenP (ws : Nat) : Pattern :=
  (List.range ws).foldl (fun ag i => ag ||| (2 <<< (i * 2))) 0

/-! ### Candidate filter (wordle.cpp lines 172-183) -/

/-- `FilterAllWordsBestOnPattern(p, guess, validWords, wordSize)`: `copy_if` of
the words whose generated pattern against `guess` equals `p`; an exception from
`GeneratePattern` propagates (`none`). -/
def FilterAllWordsBestOnPattern (p : Pattern) (guess : Word) (validWords : List Word)
    (wordSize : Nat) : Option (List Word) :=
  match validWords with
  | [] => some []
  | w :: rest => do
    let q ← GeneratePattern guess w wordSize
    let rest' ← FilterAllWordsBestOnPattern p guess rest wordSize
    if q = p then pure (w :: rest') else pure rest'

/-- Total core of the candidate filter. -/
def filterCore (p : Pattern) (guess : Word) (validWords : List Word) (ws : Nat) : List Word :=
  validWords.filter (fun w => GPcore guess w ws == p)

/-! ### Entropy ranker (wordle.cpp lines 20-32, 137-170, 202-213) -/

/-- `CalculateEntropy(counts)`: Shannon entropy of a pattern-count distribution,
`-Σ p log2 p` with `p = count / sumCounts`, skipping terms with `p <= 0`.
The `double` arithmetic is modeled over `ℝ`. -/
noncomputable def CalculateEntropy (counts : List (Pattern × Int)) : ℝ :=
  let sumCounts : Int := counts.foldl (fun acc c => acc + c.2) 0
  let entropy : ℝ := counts.foldl (fun acc c =>
      acc + (if 0 < (c.2 : ℝ) / (sumCounts : ℝ)
             then ((c.2 : ℝ) / (sumCounts : ℝ)) * Real.logb 2 ((c.2 : ℝ) / (sumCounts : ℝ))
             else 0)) 0
  Neg.neg entropy

/-- `pCounters[pat]++` on an `unordered_map<Pattern, int>`, modeled as an
association list in first-insertion order. -/
def bumpCount (counts : List (Pattern × Int)) (pat : Pattern) : List (Pattern × Int) :=
  match counts with
  | [] => [(pat, 1)]
  | (q, n) :: rest => if q = pat then (q, n + 1) :: rest else (q, n) :: bumpCount rest pat

/-- The pattern counters of candidate `i` of `words`: patterns of `words[i]`
against every `words[j]` with `j != i` (inner loop of `CalculateEntropies`). -/
def countsAt (words : List Word) (ws : Nat) (i : Nat) : Option (List (Pattern × Int)) :=
  (List.range words.length).foldlM (fun cs j =>
    if i ≠ j then do
      let p ← GeneratePattern (words.getD i []) (words.getD j []) ws
      pure (bumpCount cs p)
    else pure cs) []

/-- Total core of `countsAt`. -/
def countsAtCore (words : List Word) (ws : Nat) (i : Nat) : List (Pattern × Int) :=
  (List.range words.length).foldl (fun cs j =>
    if i ≠ j then bumpCount cs (GPcore (words.getD i []) (words.getD j []) ws) else cs) []

/-- The entropy the solver assigns to candidate `i` of `words`. -/
noncomputable def entropyAt (words : List Word) (ws : Nat) (i : Nat) : ℝ :=
  CalculateEntropy (countsAtCore words ws i)

/-- `EPSILON = 1e-9`, the precision threshold of `CompareDouble`. -/
noncomputable def EPSILON : ℝ := 1 / 1000000000

/-- The `CompareDouble` strict comparator: `(a - b) < -EPSILON`. -/
noncomputable abbrev compD (a b : ℝ) : Prop := a - b < -EPSILON

/-- The `EntropiesMap` (`std::map<double, vector<string>, CompareDouble>`),
modeled as a key-sorted association list. -/
abbrev EntropiesMap := List (ℝ × List Word)

/-- `entropies[key].push_back(w)`: ordered-map insertion with the
`CompareDouble` comparator; appends `w` to the first group whose key is
`CompareDouble`-equivalent to `key`, or creates a new singleton group at the
sorted position. -/
noncomputable def mapInsert (key : ℝ) (w : Word) : EntropiesMap → EntropiesMap
  | [] => [(key, [w])]
  | (k, g) :: rest =>
    if compD key k then (key, [w]) :: (k, g) :: rest
    else if compD k key then (k, g) :: mapInsert key w rest
    else (k, g ++ [w]) :: rest

/-- `CalculateEntropies(words, wordSize, entropies)`: for each word, tally its
pattern distribution and insert it into the entropy map. -/
noncomputable def CalculateEntropies (words : List Word) (ws : Nat) : Option EntropiesMap :=
  (List.range words.length).foldlM (fun m i => do
    let counts ← countsAt words ws i
    pure (mapInsert (CalculateEntropy counts) (words.getD i []) m)) []

/-- Total core of `CalculateEntropies`, after processing the first `m` words. -/
noncomputable def entropiesCore (words : List Word) (ws : Nat) (m : Nat) : EntropiesMap :=
  (List.range m).foldl (fun em i => mapInsert (entropyAt words ws i) (words.getD i []) em) []

/-- Invariant of the entropy-map fold after processing the first `m` words:
the map is `CompareDouble`-sorted; it is empty only before the first
insertion; every group is nonempty, lists its members in insertion order
(a sublist of the first `m` words) and is headed by the word whose insertion
created the group, the group key being exactly that word's entropy; and every
processed word belongs to a group whose key is within `EPSILON` of the word's
own entropy. -/
def EntInv (words : List Word) (ws m : Nat) (em : EntropiesMap) : Prop :=
  List.Chain' (fun a b => compD a.1 b.1) em ∧
  (em = [] ↔ m = 0) ∧
  (∀ e ∈ em, e.2 ≠ [] ∧ e.2.Sublist (words.take m) ∧
    ∃ i, i < m ∧ e.2.headD [] = words.getD i [] ∧ e.1 = entropyAt words ws i) ∧
  (∀ i, i < m → ∃ e ∈ em, words.getD i [] ∈ e.2 ∧
    |entropyAt words ws i - e.1| ≤ EPSILON)

/-- `Wordle::GetNextBestGuess(validWords)`: the first word of the
maximal-entropy group, `prev(end(entropies))->second[0]`.  On an empty map the
code asserts `validWords.size() > 1` (which aborts, modeled `none`, whenever
the map is empty, since the map is empty only for an empty word list). -/
noncomputable def GetNextBestGuess (validWords : List Word) (ws : Nat) : Option Word := do
  let entropies ← CalculateEntropies validWords ws
  if entropies.isEmpty then
    if validWords.length > 1 then pure (validWords.getD 0 []) else none
  else
    pure ((entropies.getLastD (0, [])).2.headD [])

/-! ### Self-play game driver (wordle.cpp lines 215-241) -/

/-- The guess loop of `Wordle::PlayRandomGame`: up to `fuel` further rounds,
stopping early when the previous guess already equals the hidden word; a round
computes the best guess, its pattern against the hidden word, and either
reports success (all Green) or filters the candidates.  The outer `Option` is
exception/abort propagation; the inner `Option Word` is the game's result. -/
noncomputable def playLoop (ws : Nat) (target : Word) :
    Nat → List Word → Word → Option (Option Word)
  | 0, _, _ => some none
  | fuel + 1, vw, guess =>
    if guess = target then some none
    else do
      let g ← GetNextBestGuess vw ws
      let p ← GeneratePattern g target ws
      if p ≠ allGreenP ws then do
        let vw' ← FilterAllWordsBestOnPattern p g vw ws
        playLoop ws target fuel vw' g
      else pure (some g)

/-- `Wordle::PlayRandomGame()`, with the randomly drawn hidden word
`wordToGuess` made an explicit parameter: the candidate set starts as a copy
of the dictionary and the loop allows `wordSize + 1` guesses, starting from
the empty previous guess. -/
noncomputable def PlayRandomGame (ws : Nat) (dictionary : List Word) (wordToGuess : Word) :
    Option (Option Word) :=
  playLoop ws wordToGuess (ws + 1) dictionary []

/-! ### Interactive offline mode (wordle.cpp lines 243-340) -/

/-- The `promptPatterns` lambda of `Wordle::PlayOffLineGame`, with `std::cin`
modeled as a list of tokens: collect per-letter feedback tokens until
`wordSize` valid ones are gathered, breaking out (returning the tokens
collected so far) on `"quit"` or `"remove"`, re-prompting on an invalid token,
and stopping at end of input. -/
def promptPatterns (ws : Nat) : List String → List String → List String
  | [], pats => pats
  | tok :: rest, pats =>
    if pats.length < ws then
      if tok = "quit" ∨ tok = "remove" then pats
      else if tok ≠ "gn" ∧ tok ≠ "y" ∧ tok ≠ "gr" then promptPatterns ws rest pats
      else promptPatterns ws rest (pats ++ [tok])
    else pats

/-- The `buildPattern` lambda: fold the collected tokens into a `Pattern`,
position `wordSize - 1 - i` for token `i` (`"gn"` Green, `"y"` Yellow,
otherwise Gray). -/
def buildPattern (ws : Nat) (pats : List String) : Option Pattern :=
  (List.range pats.length).foldlM (fun (p : Pattern) (i : Nat) =>
    SetColor p ((ws : Int) - 1 - i)
      (if pats.getD i "" = "gn" then Green
       else if pats.getD i "" = "y" then Yellow
       else Gray)) 0

/-- Total core of `buildPattern` on the first `m` tokens. -/
def buildPatternCore (ws : Nat) (pats : List String) (m : Nat) : Pattern :=
  (List.range m).foldl (fun p i =>
    setC p (ws - 1 - i)
      (if pats.getD i "" = "gn" then Green
       else if pats.getD i "" = "y" then Yellow
       else Gray)) 0

/-- The feedback-processing block of `Wordle::PlayOffLineGame` (lines 324-338):
after a feedback-capable command, collect per-letter tokens; if none were
collected, `continue` back to the command loop unchanged; otherwise build the
pattern and either declare a win (all Green) or filter the candidates and
compute the next guess.  Returns the new `(validWords, lastGuess)` state. -/
noncomputable def processFeedback (ws : Nat) (input : List String) (lastGuess : Word)
    (validWords : List Word) : Option (List Word × Word) :=
  let patterns := promptPatterns ws input []
  if patterns.isEmpty then some (validWords, lastGuess)
  else do
    let p ← buildPattern ws patterns
    if p ≠ allGreenP ws then do
      let vw' ← FilterAllWordsBestOnPattern p lastGuess validWords ws
      let g' ← GetNextBestGuess vw' ws
      pure (vw', g')
    else pure (validWords, lastGuess)

/-! ### Pattern codec lemmas -/

theorem and3_eq_mod (x : Nat) : x &&& 3 = x % 4 :=
  Nat.and_pow_two_sub_one_eq_mod x 2

theorem getC_shift (p i : Nat) : getC p i = (p >>> (2 * i)) &&& 3 := by
  unfold getC
  apply Nat.eq_of_testBit_eq
  intro j
  simp only [Nat.testBit_and, Nat.testBit_shiftRight, Nat.testBit_shiftLeft]
  have h1 : 2 * i + j ≥ 2 * i := Nat.le_add_right _ _
  have h2 : 2 * i + j - 2 * i = j := by omega
  simp [h1, h2, Bool.and_assoc]

theorem getC_eq (p i : Nat) : getC p i = p / 4 ^ i % 4 := by
  rw [getC_shift, and3_eq_mod, Nat.shiftRight_eq_div_pow]
  congr 1
  rw [Nat.pow_mul]

theorem getC_lt (p i : Nat) : getC p i < 4 := by
  rw [getC_eq]
  exact Nat.mod_lt _ (by omega)

theorem testBit_of_lt_four (c : Nat) (hc : c < 4) (k : Nat) (hk : 2 ≤ k) :
    c.testBit k = false := by
  apply Nat.testBit_lt_two_pow
  calc c < 4 := hc
    _ ≤ 2 ^ k := by
      have h : 2 ^ 2 ≤ 2 ^ k := Nat.pow_le_pow_right (by omega) hk
      simpa using h

theorem setC_getC_same (p : Pattern) (i : Nat) (c : Color) (hi : i ≤ 7) (hc : c < 4) :
    getC (setC p i c) i = c := by
  rw [getC_shift]
  apply Nat.eq_of_testBit_eq
  intro j
  unfold setC setNotMask setMask
  simp only [Nat.testBit_and, Nat.testBit_or, Nat.testBit_xor, Nat.testBit_shiftRight,
    Nat.testBit_shiftLeft, Nat.testBit_two_pow_sub_one]
  by_cases hj : j < 2
  · have h1 : 2 * i + j ≥ i * 2 := by omega
    have h2 : 2 * i + j - i * 2 = j := by omega
    have h3 : (3 : Nat).testBit j = true := by interval_cases j <;> decide
    have h4 : 2 * i + j < 32 := by omega
    simp [h1, h2, h3, h4, Nat.le_add_right]
  · have h3 : (3 : Nat).testBit j = false := testBit_of_lt_four 3 (by omega) j (by omega)
    have h4 : c.testBit j = false := testBit_of_lt_four c hc j (by omega)
    simp [h3, h4]

theorem setC_getC_other (p : Pattern) (i j : Nat) (c : Color) (hj : j ≤ 7)
    (hij : j ≠ i) (hc : c < 4) : getC (setC p i c) j = getC p j := by
  rw [getC_shift, getC_shift]
  apply Nat.eq_of_testBit_eq
  intro b
  unfold setC setNotMask setMask
  simp only [Nat.testBit_and, Nat.testBit_or, Nat.testBit_xor, Nat.testBit_shiftRight,
    Nat.testBit_shiftLeft, Nat.testBit_two_pow_sub_one]
  by_cases hb : b < 2
  · have h4 : 2 * j + b < 32 := by omega
    have h5 : ¬(2 * j + b ≥ i * 2) ∨ (2 * j + b ≥ i * 2 ∧ (2 * j + b - i * 2 ≥ 2)) := by omega
    rcases h5 with h5 | ⟨h5a, h5b⟩
    · simp [h4, h5]
    · have h6 : (3 : Nat).testBit (2 * j + b - i * 2) = false :=
        testBit_of_lt_four 3 (by omega) _ h5b
      have h7 : c.testBit (2 * j + b - i * 2) = false := testBit_of_lt_four c hc _ h5b
      simp [h4, h5a, h6, h7]
  · have h3 : (3 : Nat).testBit b = false := testBit_of_lt_four 3 (by omega) b (by omega)
    simp [h3]

theorem setC_lt (p : Pattern) (i : Nat) (c : Color) (n : Nat) (hp : p < 4 ^ n) (hi : i < n)
    (hc : c < 4) : setC p i c < 4 ^ n := by
  have h4 : (4 : Nat) ^ n = 2 ^ (2 * n) := by rw [Nat.pow_mul]
  rw [h4] at hp ⊢
  apply Nat.or_lt_two_pow
  · calc p &&& setNotMask i ≤ p := Nat.and_le_left
      _ < 2 ^ (2 * n) := hp
  · rw [Nat.shiftLeft_eq]
    calc c * 2 ^ (i * 2) < 4 * 2 ^ (i * 2) := by
          have hpos := Nat.pos_pow_of_pos (i * 2) (show 0 < 2 by omega)
          exact (Nat.mul_lt_mul_right hpos).mpr hc
      _ = 2 ^ (i * 2 + 2) := by ring
      _ ≤ 2 ^ (2 * n) := Nat.pow_le_pow_right (by omega) (by omega)

theorem pattern_ext (n p q : Nat) (hp : p < 4 ^ n) (hq : q < 4 ^ n)
    (h : ∀ j, j < n → getC p j = getC q j) : p = q := by
  induction n generalizing p q with
  | zero => simp at hp hq; omega
  | succ m ih =>
    have h0 : p % 4 = q % 4 := by
      have h0a := h 0 (by omega)
      rw [getC_eq, getC_eq] at h0a
      simpa using h0a
    have hpow : (4 : Nat) ^ (m + 1) = 4 * 4 ^ m := by ring
    have hdiv : p / 4 = q / 4 := by
      apply ih
      · rw [Nat.div_lt_iff_lt_mul (by omega : (0 : Nat) < 4)]
        omega
      · rw [Nat.div_lt_iff_lt_mul (by omega : (0 : Nat) < 4)]
        omega
      · intro j hj
        have hj1 := h (j + 1) (by omega)
        rw [getC_eq, getC_eq] at hj1
        rw [getC_eq, getC_eq, Nat.div_div_eq_div_mul, Nat.div_div_eq_div_mul]
        have h44 : (4 : Nat) * 4 ^ j = 4 ^ (j + 1) := by ring
        rw [h44]
        exact hj1
    omega

theorem SetColor_some (p : Pattern) (c : Color) (index : Int) (h0 : 0 ≤ index)
    (h7 : index ≤ 7) : SetColor p index c = some (setC p index.toNat c) := by
  simp [SetColor, h0, h7]

theorem GetColor_some (p : Pattern) (index : Int) (h0 : 0 ≤ index) (h7 : index ≤ 7) :
    GetColor p index = some (getC p index.toNat) := by
  simp [GetColor, h0, h7]

/-- C6: for every pattern value, every position `i` below the word size (word
sizes up to the supported maximum of 8) and every color `c` in
{Gray, Yellow, Green}, `SetColor` succeeds, `GetColor` of the written pattern
at `i` returns exactly `c`, and at every other position `j` below the word
size it returns the same 2-bit field as the original pattern: the write leaves
all other fields unchanged. -/
theorem c6_pattern_round_trip (p : Pattern) (ws : Nat) (hws : ws ≤ 8) (i : Nat) (hi : i < ws)
    (c : Color) (hc : c = Gray ∨ c = Yellow ∨ c = Green) :
    ∃ p', SetColor p (i : Int) c = some p' ∧ GetColor p' (i : Int) = some c ∧
      ∀ j : Nat, j < ws → j ≠ i → GetColor p' (j : Int) = GetColor p (j : Int) := by
  have hc4 : c < 4 := by
    rcases hc with h | h | h <;> simp [h, Gray, Yellow, Green]
  have hi7 : i ≤ 7 := by omega
  refine ⟨setC p i c, ?_, ?_, ?_⟩
  · rw [SetColor_some p c (i : Int) (by omega) (by omega)]
    simp
  · rw [GetColor_some _ (i : Int) (by omega) (by omega)]
    simp [setC_getC_same p i c hi7 hc4]
  · intro j hj hji
    have hj7 : j ≤ 7 := by omega
    rw [GetColor_some _ (j : Int) (by omega) (by omega),
      GetColor_some _ (j : Int) (by omega) (by omega)]
    simp [setC_getC_other p i j c hj7 hji hc4]

/-- Witness for C6 at a concrete pattern, position and color. -/
theorem c6_pattern_round_trip_witness :
    ∃ p', SetColor 682 (2 : Int) Yellow = some p' ∧ GetColor p' (2 : Int) = some Yellow ∧
      ∀ j : Nat, j < 5 → j ≠ 2 → GetColor p' (j : Int) = GetColor 682 (j : Int) :=
  c6_pattern_round_trip 682 5 (by decide) 2 (by decide) Yellow (by decide)

/-! ### Bridging the exception layer to the total core -/

theorem foldlM_eq_foldl {α σ : Type} (l : List α) (f : σ → α → Option σ) (g : σ → α → σ)
    (h : ∀ s a, a ∈ l → f s a = some (g s a)) (s : σ) :
    l.foldlM f s = some (l.foldl g s) := by
  induction l generalizing s with
  | nil => rfl
  | cons a tl ih =>
    rw [List.foldlM_cons, h s a (List.mem_cons_self a tl), List.foldl_cons]
    show tl.foldlM f (g s a) = some (tl.foldl g (g s a))
    exact ih (fun s' b hb => h s' b (List.mem_cons_of_mem a hb)) (g s a)

theorem gpStep1_eq (guess other : Word) (ws : Nat) (hws : ws ≤ 8)
    (st : Pattern × (Char → Int)) (i : Nat) (hi : i < ws) :
    gpStep1 guess other ws st i = some (gpStep1C guess other ws st i) := by
  have h0 : (0 : Int) ≤ (ws : Int) - 1 - (i : Int) := by omega
  have h7 : (ws : Int) - 1 - (i : Int) ≤ 7 := by omega
  have htn : ((ws : Int) - 1 - (i : Int)).toNat = ws - 1 - i := by omega
  unfold gpStep1 gpStep1C
  by_cases hm : guess.getD i 'A' = other.getD i 'A'
  · rw [if_pos hm, if_pos hm, SetColor_some _ _ _ h0 h7, htn]
    rfl
  · rw [if_neg hm, if_neg hm]
    rfl

theorem gpStep2_eq (guess : Word) (ws : Nat) (hws : ws ≤ 8)
    (st : Pattern × (Char → Int)) (i : Nat) (hi : i < ws) :
    gpStep2 guess ws st i = some (gpStep2C guess ws st i) := by
  have h0 : (0 : Int) ≤ (ws : Int) - 1 - (i : Int) := by omega
  have h7 : (ws : Int) - 1 - (i : Int) ≤ 7 := by omega
  have htn : ((ws : Int) - 1 - (i : Int)).toNat = ws - 1 - i := by omega
  unfold gpStep2 gpStep2C
  rw [GetColor_some _ _ h0 h7, htn]
  show (if getC st.1 (ws - 1 - i) = Green then pure st else _) = _
  by_cases hcol : getC st.1 (ws - 1 - i) = Green
  · rw [if_pos hcol, if_pos hcol]
    rfl
  · rw [if_neg hcol, if_neg hcol]
    by_cases hfr : st.2 (guess.getD i 'A') ≠ 0
    · rw [if_pos hfr, if_pos hfr, SetColor_some _ _ _ h0 h7, htn]
      rfl
    · rw [if_neg hfr, if_neg hfr, SetColor_some _ _ _ h0 h7, htn]
      rfl

theorem GeneratePattern_eq_core (guess other : Word) (ws : Nat) (hws : ws ≤ 8)
    (hg : guess.length ≤ ws) :
    GeneratePattern guess other ws = some (GPcore guess other ws) := by
  unfold GeneratePattern GPcore gpPass2 gpPass1
  rw [foldlM_eq_foldl _ _ (gpStep1C guess other ws)
    (fun s a ha => gpStep1_eq guess other ws hws s a
      (by have := List.mem_range.mp ha; omega))]
  show (List.range guess.length).foldlM (gpStep2 guess ws) _ >>= _ = _
  rw [foldlM_eq_foldl _ _ (gpStep2C guess ws)
    (fun s a ha => gpStep2_eq guess ws hws s a
      (by have := List.mem_range.mp ha; omega))]
  rfl

/-! ### Per-position characterization of the Green pass -/

theorem gpPass1_succ (guess other : Word) (ws k : Nat) :
    gpPass1 guess other ws (k + 1) =
      gpStep1C guess other ws (gpPass1 guess other ws k) k := by
  unfold gpPass1
  rw [List.range_succ, List.foldl_append, List.foldl_cons, List.foldl_nil]

theorem gpPass2_succ (guess other : Word) (ws k : Nat) :
    gpPass2 guess other ws (k + 1) =
      gpStep2C guess ws (gpPass2 guess other ws k) k := by
  unfold gpPass2
  rw [List.range_succ, List.foldl_append, List.foldl_cons, List.foldl_nil]

theorem gpPass1_lt (guess other : Word) (ws : Nat) (hws : ws ≤ 8) (m : Nat) (hm : m ≤ ws) :
    (gpPass1 guess other ws m).1 < 4 ^ ws := by
  induction m with
  | zero =>
    unfold gpPass1
    simp [Nat.pos_pow_of_pos]
  | succ k ih =>
    rw [gpPass1_succ]
    unfold gpStep1C
    by_cases hmk : guess.getD k 'A' = other.getD k 'A'
    · rw [if_pos hmk]
      exact setC_lt _ _ _ _ (ih (by omega)) (by omega) (by decide)
    · rw [if_neg hmk]
      exact ih (by omega)

theorem gpPass1_field (guess other : Word) (ws : Nat) (hws : ws ≤ 8) (m : Nat) (hm : m ≤ ws)
    (j : Nat) (hj : j < ws) :
    getC (gpPass1 guess other ws m).1 j =
      if ws - m ≤ j ∧ guess.getD (ws - 1 - j) 'A' = other.getD (ws - 1 - j) 'A'
      then Green else Gray := by
  induction m with
  | zero =>
    rw [if_neg (fun h => absurd h.1 (by omega))]
    unfold gpPass1
    simp [getC_eq, Gray]
  | succ k ih =>
    rw [gpPass1_succ]
    unfold gpStep1C
    by_cases hmk : guess.getD k 'A' = other.getD k 'A'
    · rw [if_pos hmk]
      by_cases hjk : j = ws - 1 - k
      · subst hjk
        rw [setC_getC_same _ _ _ (by omega) (by decide)]
        have hidx : ws - 1 - (ws - 1 - k) = k := by omega
        rw [if_pos ⟨by omega, by rw [hidx]; exact hmk⟩]
      · rw [setC_getC_other _ _ _ _ (by omega) hjk (by decide)]
        rw [ih (by omega)]
        have hiff : (ws - k ≤ j) ↔ (ws - (k + 1) ≤ j) := by omega
        simp only [hiff]
    · rw [if_neg hmk]
      rw [ih (by omega)]
      by_cases hjk : j = ws - 1 - k
      · subst hjk
        have hidx : ws - 1 - (ws - 1 - k) = k := by omega
        rw [if_neg (fun h => absurd h.1 (by omega)),
          if_neg (fun h => hmk (by rw [hidx] at h; exact h.2))]
      · have hiff : (ws - k ≤ j) ↔ (ws - (k + 1) ≤ j) := by omega
        simp only [hiff]

theorem gpPass2_lt (guess other : Word) (ws : Nat) (hws : ws ≤ 8) (hg : guess.length ≤ ws)
    (m : Nat) (hm : m ≤ ws) : (gpPass2 guess other ws m).1 < 4 ^ ws := by
  induction m with
  | zero =>
    unfold gpPass2
    simp only [List.range_zero, List.foldl_nil]
    exact gpPass1_lt guess other ws hws guess.length hg
  | succ k ih =>
    rw [gpPass2_succ]
    unfold gpStep2C
    by_cases hcol : getC (gpPass2 guess other ws k).1 (ws - 1 - k) = Green
    · simp only [if_pos hcol]
      exact ih (by omega)
    · simp only [if_neg hcol]
      by_cases hfr : (gpPass2 guess other ws k).2 (guess.getD k 'A') ≠ 0
      · simp only [if_pos hfr]
        exact setC_lt _ _ _ _ (ih (by omega)) (by omega) (by decide)
      · simp only [if_neg hfr]
        exact setC_lt _ _ _ _ (ih (by omega)) (by omega) (by decide)

theorem gpPass2_green (guess other : Word) (ws : Nat) (hws : ws ≤ 8) (m : Nat) (hm : m ≤ ws)
    (j : Nat) (hj : j < ws) :
    (getC (gpPass2 guess other ws m).1 j = Green ↔
      getC (gpPass1 guess other ws guess.length).1 j = Green) := by
  induction m with
  | zero =>
    unfold gpPass2
    simp only [List.range_zero, List.foldl_nil]
  | succ k ih =>
    rw [gpPass2_succ]
    unfold gpStep2C
    by_cases hcol : getC (gpPass2 guess other ws k).1 (ws - 1 - k) = Green
    · simp only [if_pos hcol]
      exact ih (by omega)
    · simp only [if_neg hcol]
      by_cases hjk : j = ws - 1 - k
      · subst hjk
        by_cases hfr : (gpPass2 guess other ws k).2 (guess.getD k 'A') ≠ 0
        · simp only [if_pos hfr]
          rw [setC_getC_same _ _ _ (by omega) (by decide)]
          constructor
          · intro h
            exact absurd h (by decide)
          · intro h
            exact absurd ((ih (by omega)).mpr h) hcol
        · simp only [if_neg hfr]
          rw [setC_getC_same _ _ _ (by omega) (by decide)]
          constructor
          · intro h
            exact absurd h (by decide)
          · intro h
            exact absurd ((ih (by omega)).mpr h) hcol
      · by_cases hfr : (gpPass2 guess other ws k).2 (guess.getD k 'A') ≠ 0
        · simp only [if_pos hfr]
          rw [setC_getC_other _ _ _ _ (by omega) hjk (by decide)]
          exact ih (by omega)
        · simp only [if_neg hfr]
          rw [setC_getC_other _ _ _ _ (by omega) hjk (by decide)]
          exact ih (by omega)

theorem GPcore_lt (guess other : Word) (ws : Nat) (hws : ws ≤ 8) (hg : guess.length ≤ ws) :
    GPcore guess other ws < 4 ^ ws :=
  gpPass2_lt guess other ws hws hg guess.length hg

theorem GPcore_green_iff (guess other : Word) (ws : Nat) (hws : ws ≤ 8)
    (hg : guess.length = ws) (i : Nat) (hi : i < ws) :
    (getC (GPcore guess other ws) (ws - 1 - i) = Green ↔
      guess.getD i 'A' = other.getD i 'A') := by
  unfold GPcore
  rw [gpPass2_green guess other ws hws guess.length (by omega) (ws - 1 - i) (by omega)]
  rw [hg] at *
  rw [gpPass1_field guess other ws hws ws (by omega) (ws - 1 - i) (by omega)]
  have hidx : ws - 1 - (ws - 1 - i) = i := by omega
  rw [hidx]
  by_cases hmk : guess.getD i 'A' = other.getD i 'A'
  · rw [if_pos ⟨by omega, hmk⟩]
    exact ⟨fun _ => hmk, fun _ => rfl⟩
  · rw [if_neg (fun h => hmk h.2)]
    constructor
    · intro h
      exact absurd h (by decide)
    · intro h
      exact absurd h hmk

/-! ### The all-Green pattern -/

theorem getC_or (a b j : Nat) : getC (a ||| b) j = getC a j ||| getC b j := by
  rw [getC_shift, getC_shift, getC_shift]
  apply Nat.eq_of_testBit_eq
  intro t
  simp only [Nat.testBit_and, Nat.testBit_or, Nat.testBit_shiftRight]
  cases ha : a.testBit (2 * j + t) <;> cases hb : b.testBit (2 * j + t) <;> simp

theorem getC_two_shift (i j : Nat) : getC (2 <<< (i * 2)) j = if j = i then Green else Gray := by
  rw [getC_eq, Nat.shiftLeft_eq]
  have hp : (2 : Nat) ^ (i * 2) = 4 ^ i := by
    rw [mul_comm, Nat.pow_mul]
  rcases lt_trichotomy j i with h | h | h
  · rw [if_neg (by omega), hp]
    have hdvd : (4 : Nat) ^ j ∣ 4 ^ i := pow_dvd_pow 4 (by omega)
    rw [Nat.mul_div_assoc 2 hdvd, Nat.pow_div (by omega) (by omega)]
    have hij : i - j = (i - j - 1) + 1 := by omega
    rw [hij, pow_succ]
    have hre : 2 * (4 ^ (i - j - 1) * 4) = 4 * (2 * 4 ^ (i - j - 1)) := by ring
    rw [hre, Nat.mul_mod_right]
    rfl
  · subst h
    rw [if_pos rfl, hp, Nat.mul_div_cancel _ (Nat.pos_pow_of_pos _ (by omega))]
    rfl
  · rw [if_neg (by omega), hp]
    have hlt : 2 * 4 ^ i < 4 ^ j := by
      calc 2 * 4 ^ i < 4 * 4 ^ i := by
            have hpos := Nat.pos_pow_of_pos i (show 0 < 4 by omega)
            omega
        _ = 4 ^ (i + 1) := by ring
        _ ≤ 4 ^ j := Nat.pow_le_pow_right (by omega) (by omega)
    rw [Nat.div_eq_of_lt hlt]
    rfl

theorem allGreenFold_succ (k : Nat) :
    (List.range (k + 1)).foldl (fun ag i => ag ||| (2 <<< (i * 2))) 0 =
      ((List.range k).foldl (fun ag i => ag ||| (2 <<< (i * 2))) 0) ||| (2 <<< (k * 2)) := by
  rw [List.range_succ, List.foldl_append, List.foldl_cons, List.foldl_nil]

theorem allGreenFold_lt (m n : Nat) (hm : m ≤ n) :
    (List.range m).foldl (fun ag i => ag ||| (2 <<< (i * 2))) 0 < 4 ^ n := by
  induction m with
  | zero => simp [Nat.pos_pow_of_pos]
  | succ k ih =>
    rw [allGreenFold_succ]
    have h4 : (4 : Nat) ^ n = 2 ^ (2 * n) := by rw [Nat.pow_mul]
    rw [h4]
    apply Nat.or_lt_two_pow
    · rw [← h4]
      exact ih (by omega)
    · rw [Nat.shiftLeft_eq]
      have h2 : (2 : Nat) * 2 ^ (k * 2) = 2 ^ (k * 2 + 1) := by ring
      rw [h2]
      exact Nat.pow_lt_pow_right (by omega) (by omega)

theorem allGreenFold_field (m n j : Nat) (hm : m ≤ n) (hj : j < n) :
    getC ((List.range m).foldl (fun ag i => ag ||| (2 <<< (i * 2))) 0) j =
      if j < m then Green else Gray := by
  induction m with
  | zero =>
    rw [if_neg (by omega)]
    simp [getC_eq, Gray]
  | succ k ih =>
    rw [allGreenFold_succ, getC_or, getC_two_shift, ih (by omega)]
    by_cases hjk : j = k
    · rw [if_neg (by omega), if_pos hjk, if_pos (by omega)]
      decide
    · by_cases hjlt : j < k
      · rw [if_pos hjlt, if_neg hjk, if_pos (by omega)]
        decide
      · rw [if_neg hjlt, if_neg hjk, if_neg (by omega)]
        decide

theorem allGreenP_lt (ws : Nat) : allGreenP ws < 4 ^ ws :=
  allGreenFold_lt ws ws le_rfl

theorem allGreenP_field (ws j : Nat) (hj : j < ws) : getC (allGreenP ws) j = Green := by
  unfold allGreenP
  rw [allGreenFold_field ws ws j le_rfl hj, if_pos hj]

/-! ### Self-match and all-Green characterization of `GeneratePattern` -/

theorem GPcore_self (w : Word) (ws : Nat) (hws : ws ≤ 8) (hw : w.length = ws) :
    GPcore w w ws = allGreenP ws := by
  apply pattern_ext ws
  · exact GPcore_lt w w ws hws (by omega)
  · exact allGreenP_lt ws
  · intro j hj
    have hgr := (GPcore_green_iff w w ws hws hw (ws - 1 - j) (by omega)).mpr rfl
    have hidx : ws - 1 - (ws - 1 - j) = j := by omega
    rw [hidx] at hgr
    rw [hgr, allGreenP_field ws j hj]

/-- C7: for every word `w` of length `wordSize` (word sizes up to the supported
maximum of 8), `GeneratePattern(w, w, wordSize)` returns the all-Green pattern
built by the game driver. -/
theorem c7_self_match (w : Word) (ws : Nat) (hws : ws ≤ 8) (hw : w.length = ws) :
    GeneratePattern w w ws = some (allGreenP ws) := by
  rw [GeneratePattern_eq_core w w ws hws (by omega), GPcore_self w ws hws hw]

/-- Witness for C7 on a concrete word. -/
theorem c7_self_match_witness : GeneratePattern "CRANE".toList "CRANE".toList 5 = some (allGreenP 5) :=
  c7_self_match "CRANE".toList 5 (by decide) (by decide)

theorem GPcore_all_green_imp (guess target : Word) (ws : Nat) (hws : ws ≤ 8)
    (hg : guess.length = ws) (ht : target.length = ws)
    (h : GPcore guess target ws = allGreenP ws) : guess = target := by
  apply List.ext_getElem (by omega)
  intro i h1 h2
  have hi : i < ws := by omega
  have hgr : getC (GPcore guess target ws) (ws - 1 - i) = Green := by
    rw [h]
    exact allGreenP_field ws (ws - 1 - i) (by omega)
  have hmk := (GPcore_green_iff guess target ws hws hg i hi).mp hgr
  rwa [List.getD_eq_getElem guess 'A' h1, List.getD_eq_getElem target 'A' h2] at hmk

/-- C9: for words of length `wordSize` (3 to 8), an all-Green feedback pattern
forces the guess to equal the target, so the all-Green tests in the game
drivers succeed only when the guess is the hidden/target word. -/
theorem c9_all_green_implies_equal (guess target : Word) (ws : Nat) (hws3 : 3 ≤ ws)
    (hws : ws ≤ 8) (hg : guess.length = ws) (ht : target.length = ws)
    (h : GeneratePattern guess target ws = some (allGreenP ws)) : guess = target := by
  rw [GeneratePattern_eq_core guess target ws hws (by omega)] at h
  exact GPcore_all_green_imp guess target ws hws hg ht (Option.some.inj h)

/-- Witness for C9 at concrete words. -/
theorem c9_all_green_implies_equal_witness :
    "CRANE".toList = "CRANE".toList :=
  c9_all_green_implies_equal "CRANE".toList "CRANE".toList 5 (by decide) (by decide)
    (by decide) (by decide) (by decide)

/-- C1 (counterexample): the claim's expected colors are wrong on both
examples.  `GeneratePattern("MAMBO", "AMAZE", 5)` returns pattern 320
(`0b0101000000`, the value the code's own test expects), in which no position
at all is Green — "M and A marked Green at their matching positions" is false
(MAMBO and AMAZE agree at no position).  `GeneratePattern("APPLE", "PLATE", 5)`
returns 326 (`0b0101000110`), in which position 0 (the letter A) is Yellow,
not Gray as "all other positions Gray" demands. -/
theorem c1_counterexample :
    GeneratePattern "MAMBO".toList "AMAZE".toList 5 = some 320 ∧
    (∀ i : Nat, i < 5 → GetColor 320 ((5 : Int) - 1 - i) ≠ some Green) ∧
    GeneratePattern "APPLE".toList "PLATE".toList 5 = some 326 ∧
    GetColor 326 ((5 : Int) - 1 - 0) = some Yellow ∧ Yellow ≠ Gray := by
  exact ⟨by decide, by decide, by decide, by decide, by decide⟩

/-- C1 (amended): `GeneratePattern("MAMBO", "AMAZE", 5)` marks M (position 0)
and A (position 1) Yellow and all other positions (M, B, O) Gray;
`GeneratePattern("APPLE", "PLATE", 5)` marks A (position 0), P (position 1)
and L (position 3) Yellow, the second P (position 2) Gray, and E (position 4)
Green — the colors encoded in the returned patterns' per-position 2-bit
fields, matching the letter-frequency consumption rule and the values the
code's own test expects. -/
theorem c1_duplicate_letter_patterns :
    ∃ p1 p2,
      GeneratePattern "MAMBO".toList "AMAZE".toList 5 = some p1 ∧
      GetColor p1 ((5 : Int) - 1 - 0) = some Yellow ∧
      GetColor p1 ((5 : Int) - 1 - 1) = some Yellow ∧
      GetColor p1 ((5 : Int) - 1 - 2) = some Gray ∧
      GetColor p1 ((5 : Int) - 1 - 3) = some Gray ∧
      GetColor p1 ((5 : Int) - 1 - 4) = some Gray ∧
      GeneratePattern "APPLE".toList "PLATE".toList 5 = some p2 ∧
      GetColor p2 ((5 : Int) - 1 - 0) = some Yellow ∧
      GetColor p2 ((5 : Int) - 1 - 1) = some Yellow ∧
      GetColor p2 ((5 : Int) - 1 - 2) = some Gray ∧
      GetColor p2 ((5 : Int) - 1 - 3) = some Yellow ∧
      GetColor p2 ((5 : Int) - 1 - 4) = some Green := by
  exact ⟨320, 326, by decide, by decide, by decide, by decide, by decide, by decide,
    by decide, by decide, by decide, by decide, by decide, by decide⟩

/-! ### Candidate filter: soundness, completeness, order preservation -/

theorem Filter_eq_core (p : Pattern) (guess : Word) (vw : List Word) (ws : Nat)
    (hws : ws ≤ 8) (hg : guess.length ≤ ws) :
    FilterAllWordsBestOnPattern p guess vw ws = some (filterCore p guess vw ws) := by
  induction vw with
  | nil => rfl
  | cons w rest ih =>
    show (do
      let q ← GeneratePattern guess w ws
      let rest' ← FilterAllWordsBestOnPattern p guess rest ws
      if q = p then pure (w :: rest') else pure rest') = _
    rw [GeneratePattern_eq_core guess w ws hws hg, ih]
    show (if GPcore guess w ws = p then some (w :: filterCore p guess rest ws)
          else some (filterCore p guess rest ws)) = some (filterCore p guess (w :: rest) ws)
    unfold filterCore
    rw [List.filter_cons]
    by_cases hq : GPcore guess w ws = p
    · rw [if_pos hq, if_pos (by simp [hq])]
    · rw [if_neg hq, if_neg (by simp [hq])]

/-- C2: for every pattern, guess (of length at most the word size, itself at
most 8, so that pattern generation does not throw) and candidate list, the
filter returns exactly the words `w` with
`GeneratePattern(guess, w, wordSize) == pattern` — soundness and completeness —
and the surviving words form a sublist of the input, i.e. they keep their
relative order.  The input list is untouched (the embedding is a pure function
of it). -/
theorem c2_filter_exact (ws : Nat) (hws : ws ≤ 8) (p : Pattern) (guess : Word)
    (hg : guess.length ≤ ws) (vw : List Word) :
    ∃ res, FilterAllWordsBestOnPattern p guess vw ws = some res ∧
      (∀ w, w ∈ res ↔ w ∈ vw ∧ GeneratePattern guess w ws = some p) ∧
      res.Sublist vw := by
  refine ⟨filterCore p guess vw ws, Filter_eq_core p guess vw ws hws hg, ?_,
    List.filter_sublist vw⟩
  intro w
  unfold filterCore
  rw [List.mem_filter]
  constructor
  · rintro ⟨hmem, hpred⟩
    have hcore : GPcore guess w ws = p := by simpa using hpred
    exact ⟨hmem, by rw [GeneratePattern_eq_core guess w ws hws hg, hcore]⟩
  · rintro ⟨hmem, hgen⟩
    rw [GeneratePattern_eq_core guess w ws hws hg] at hgen
    exact ⟨hmem, by simp [Option.some.inj hgen]⟩

/-- Witness for C2 on a concrete candidate list. -/
theorem c2_filter_exact_witness :
    ∃ res, FilterAllWordsBestOnPattern 512 "CRANE".toList
        ["CRANE".toList, "COUGH".toList] 5 = some res ∧
      (∀ w, w ∈ res ↔ w ∈ ["CRANE".toList, "COUGH".toList] ∧
        GeneratePattern "CRANE".toList w 5 = some 512) ∧
      res.Sublist ["CRANE".toList, "COUGH".toList] :=
  c2_filter_exact 5 (by decide) 512 "CRANE".toList (by decide) _

/-- C10: the hidden target survives every candidate-filtering step of
self-play.  It starts in the round-1 candidate set (definitionally a copy of
the dictionary in `PlayRandomGame`), and whenever a round's observed pattern
is exactly `GeneratePattern(guess, target, wordSize)`, the target satisfies
the filtering predicate, so it is a member of the filtered candidate set
produced from any candidate set containing it. -/
theorem c10_target_survives (ws : Nat) (hws : ws ≤ 8) (g target : Word)
    (hg : g.length ≤ ws) (vw : List Word) (hmem : target ∈ vw) (pat : Pattern)
    (hpat : GeneratePattern g target ws = some pat) :
    ∀ res, FilterAllWordsBestOnPattern pat g vw ws = some res → target ∈ res := by
  intro res hres
  rw [Filter_eq_core pat g vw ws hws hg] at hres
  have hr : res = filterCore pat g vw ws := (Option.some.inj hres).symm
  subst hr
  unfold filterCore
  rw [List.mem_filter]
  refine ⟨hmem, ?_⟩
  rw [GeneratePattern_eq_core g target ws hws hg] at hpat
  simp [Option.some.inj hpat]

/-- Witness for C10 at a concrete guess, target, candidate set and filter
result. -/
theorem c10_target_survives_witness :
    FilterAllWordsBestOnPattern 512 "CRANE".toList
        ["CRANE".toList, "COUGH".toList] 5 = some ["COUGH".toList] ∧
    "COUGH".toList ∈ ["COUGH".toList] :=
  ⟨by decide,
    c10_target_survives 5 (by decide) "CRANE".toList "COUGH".toList (by decide)
      ["CRANE".toList, "COUGH".toList] (by decide) 512 (by decide)
      ["COUGH".toList] (by decide)⟩

/-! ### Entropy values (CalculateEntropy) -/

theorem CalculateEntropy_single (pat : Pattern) (n : Int) (hn : 0 < n) :
    CalculateEntropy [(pat, n)] = 0 := by
  have hnR : (0 : ℝ) < (n : ℝ) := by exact_mod_cast hn
  simp only [CalculateEntropy, List.foldl_cons, List.foldl_nil, zero_add]
  rw [div_self (ne_of_gt hnR)]
  simp [Real.logb_one]

theorem CalculateEntropy_two_equal (p1 p2 : Pattern) (n : Int) (hn : 0 < n) :
    CalculateEntropy [(p1, n), (p2, n)] = 1 := by
  have hnR : (0 : ℝ) < (n : ℝ) := by exact_mod_cast hn
  simp only [CalculateEntropy, List.foldl_cons, List.foldl_nil, zero_add]
  push_cast
  have hhalf : (n : ℝ) / ((n : ℝ) + (n : ℝ)) = 1 / 2 := by
    rw [div_eq_div_iff (by linarith) (by norm_num)]
    ring
  rw [hhalf]
  have hpos : (0 : ℝ) < 1 / 2 := by norm_num
  rw [if_pos hpos]
  have hlog : Real.logb 2 (1 / 2) = -1 := by
    rw [one_div, Real.logb_inv, Real.logb_self_eq_one (by norm_num)]
  rw [hlog]
  ring

theorem CalculateEntropy_four_equal (q1 q2 q3 q4 : Pattern) (n : Int) (hn : 0 < n) :
    CalculateEntropy [(q1, n), (q2, n), (q3, n), (q4, n)] = 2 := by
  have hnR : (0 : ℝ) < (n : ℝ) := by exact_mod_cast hn
  simp only [CalculateEntropy, List.foldl_cons, List.foldl_nil, zero_add]
  push_cast
  have hq : (n : ℝ) / ((n : ℝ) + (n : ℝ) + (n : ℝ) + (n : ℝ)) = 1 / 4 := by
    rw [div_eq_div_iff (by linarith) (by norm_num)]
    ring
  rw [hq]
  have hpos : (0 : ℝ) < 1 / 4 := by norm_num
  rw [if_pos hpos]
  have hlog : Real.logb 2 (1 / 4) = -2 := by
    rw [one_div, Real.logb_inv]
    have h4 : (4 : ℝ) = 2 * 2 := by norm_num
    rw [h4, Real.logb_mul (by norm_num) (by norm_num),
      Real.logb_self_eq_one (by norm_num)]
    norm_num
  rw [hlog]
  ring

/-- C8: the Shannon entropy computed by `CalculateEntropy` is exactly 0 for a
distribution concentrated on a single pattern, 1 (hence within tolerance 1e-6)
for two equally likely patterns, and 2 (within 1e-6) for four equally likely
patterns. -/
theorem c8_entropy_values (pat p1 p2 q1 q2 q3 q4 : Pattern) (n m k : Int)
    (hn : 0 < n) (hm : 0 < m) (hk : 0 < k) :
    CalculateEntropy [(pat, n)] = 0 ∧
    |CalculateEntropy [(p1, m), (p2, m)] - 1| ≤ 1 / 1000000 ∧
    |CalculateEntropy [(q1, k), (q2, k), (q3, k), (q4, k)] - 2| ≤ 1 / 1000000 := by
  refine ⟨CalculateEntropy_single pat n hn, ?_, ?_⟩
  · rw [CalculateEntropy_two_equal p1 p2 m hm]
    norm_num
  · rw [CalculateEntropy_four_equal q1 q2 q3 q4 k hk]
    norm_num

/-- Witness for C8 on the concrete distributions of the code's own test. -/
theorem c8_entropy_values_witness :
    CalculateEntropy [(242, 100)] = 0 ∧
    |CalculateEntropy [(242, 50), (0, 50)] - 1| ≤ 1 / 1000000 ∧
    |CalculateEntropy [(242, 25), (0, 25), (27, 25), (81, 25)] - 2| ≤ 1 / 1000000 :=
  c8_entropy_values 242 242 0 242 0 27 81 100 50 25 (by norm_num) (by norm_num) (by norm_num)

/-! ### The entropy map: ordered-insertion lemmas -/

theorem EPSILON_pos : (0 : ℝ) < EPSILON := by
  unfold EPSILON
  norm_num

theorem mapInsert_ne_nil (key : ℝ) (w : Word) (em : EntropiesMap) :
    mapInsert key w em ≠ [] := by
  cases em with
  | nil => simp [mapInsert]
  | cons hd rest =>
    obtain ⟨k, g⟩ := hd
    simp only [mapInsert]
    split
    · simp
    · split <;> simp

theorem mapInsert_mem_structure (key : ℝ) (w : Word) (em : EntropiesMap) :
    ∀ e ∈ mapInsert key w em,
      e ∈ em ∨ e = (key, [w]) ∨
      ∃ g, (e.1, g) ∈ em ∧ e.2 = g ++ [w] ∧ |key - e.1| ≤ EPSILON := by
  induction em with
  | nil =>
    intro e he
    simp [mapInsert] at he
    right; left; exact he
  | cons hd rest ih =>
    obtain ⟨k, g⟩ := hd
    intro e he
    simp only [mapInsert] at he
    by_cases h1 : compD key k
    · rw [if_pos h1] at he
      rcases List.mem_cons.mp he with h | h
      · right; left; exact h
      · left; exact h
    · rw [if_neg h1] at he
      by_cases h2 : compD k key
      · rw [if_pos h2] at he
        rcases List.mem_cons.mp he with h | h
        · left
          rw [h]
          exact List.mem_cons_self _ _
        · rcases ih e h with h3 | h3 | ⟨g', hg', he2, hb⟩
          · left; exact List.mem_cons_of_mem _ h3
          · right; left; exact h3
          · right; right; exact ⟨g', List.mem_cons_of_mem _ hg', he2, hb⟩
      · rw [if_neg h2] at he
        rcases List.mem_cons.mp he with h | h
        · subst h
          right; right
          refine ⟨g, List.mem_cons_self _ _, rfl, ?_⟩
          simp only [compD, not_lt] at h1 h2
          rw [abs_le]
          constructor <;> [linarith; linarith]
        · left; exact List.mem_cons_of_mem _ h

theorem mapInsert_persist (key : ℝ) (w x : Word) (em : EntropiesMap) :
    ∀ e ∈ em, x ∈ e.2 → ∃ g', (e.1, g') ∈ mapInsert key w em ∧ x ∈ g' := by
  induction em with
  | nil => intro e he; cases he
  | cons hd rest ih =>
    obtain ⟨k, g⟩ := hd
    intro e he hx
    simp only [mapInsert]
    by_cases h1 : compD key k
    · rw [if_pos h1]
      refine ⟨e.2, ?_, hx⟩
      have heta : (e.1, e.2) = e := rfl
      rw [heta]
      exact List.mem_cons_of_mem _ he
    · by_cases h2 : compD k key
      · rw [if_neg h1, if_pos h2]
        rcases List.mem_cons.mp he with h | h
        · subst h
          exact ⟨g, List.mem_cons_self _ _, hx⟩
        · obtain ⟨g', hg', hxg⟩ := ih e h hx
          exact ⟨g', List.mem_cons_of_mem _ hg', hxg⟩
      · rw [if_neg h1, if_neg h2]
        rcases List.mem_cons.mp he with h | h
        · subst h
          exact ⟨g ++ [w], List.mem_cons_self _ _, List.mem_append_left _ hx⟩
        · refine ⟨e.2, ?_, hx⟩
          have heta : (e.1, e.2) = e := rfl
          rw [heta]
          exact List.mem_cons_of_mem _ h

theorem mapInsert_new_mem (key : ℝ) (w : Word) (em : EntropiesMap) :
    ∃ e ∈ mapInsert key w em, w ∈ e.2 ∧ |key - e.1| ≤ EPSILON := by
  have habs : |key - key| ≤ EPSILON := by
    rw [sub_self, abs_zero]
    exact le_of_lt EPSILON_pos
  induction em with
  | nil =>
    refine ⟨(key, [w]), by simp [mapInsert], by simp, habs⟩
  | cons hd rest ih =>
    obtain ⟨k, g⟩ := hd
    simp only [mapInsert]
    by_cases h1 : compD key k
    · rw [if_pos h1]
      exact ⟨(key, [w]), List.mem_cons_self _ _, by simp, habs⟩
    · by_cases h2 : compD k key
      · rw [if_neg h1, if_pos h2]
        obtain ⟨e, he, hw, hb⟩ := ih
        exact ⟨e, List.mem_cons_of_mem _ he, hw, hb⟩
      · rw [if_neg h1, if_neg h2]
        refine ⟨(k, g ++ [w]), List.mem_cons_self _ _, List.mem_append_right _ (by simp), ?_⟩
        simp only [compD, not_lt] at h1 h2
        rw [abs_le]
        constructor <;> [linarith; linarith]

theorem mapInsert_headKey (key : ℝ) (w : Word) (em : EntropiesMap) (a : ℝ × List Word)
    (ha : (mapInsert key w em).head? = some a) :
    a.1 = key ∨ ∃ b, em.head? = some b ∧ a.1 = b.1 := by
  cases em with
  | nil =>
    simp [mapInsert] at ha
    left
    rw [← ha]
  | cons hd rest =>
    obtain ⟨k, g⟩ := hd
    simp only [mapInsert] at ha
    by_cases h1 : compD key k
    · rw [if_pos h1] at ha
      simp at ha
      left
      rw [← ha]
    · by_cases h2 : compD k key
      · rw [if_neg h1, if_pos h2] at ha
        simp at ha
        right
        exact ⟨(k, g), rfl, by rw [← ha]⟩
      · rw [if_neg h1, if_neg h2] at ha
        simp at ha
        right
        exact ⟨(k, g), rfl, by rw [← ha]⟩

theorem mapInsert_chain (key : ℝ) (w : Word) (em : EntropiesMap)
    (h : List.Chain' (fun a b => compD a.1 b.1) em) :
    List.Chain' (fun a b => compD a.1 b.1) (mapInsert key w em) := by
  induction em with
  | nil => simp [mapInsert]
  | cons hd rest ih =>
    obtain ⟨k, g⟩ := hd
    simp only [mapInsert]
    by_cases h1 : compD key k
    · rw [if_pos h1]
      exact List.chain'_cons.mpr ⟨h1, h⟩
    · have hc := List.chain'_cons'.mp h
      by_cases h2 : compD k key
      · rw [if_neg h1, if_pos h2]
        apply List.chain'_cons'.mpr
        refine ⟨?_, ih hc.2⟩
        intro y hy
        rcases mapInsert_headKey key w rest y hy with hk | ⟨b, hb, hk⟩
        · show compD k y.1
          rw [hk]
          exact h2
        · show compD k y.1
          rw [hk]
          exact hc.1 b hb
      · rw [if_neg h1, if_neg h2]
        apply List.chain'_cons'.mpr
        exact ⟨fun y hy => hc.1 y hy, hc.2⟩

theorem chain_le_getLast :
    ∀ (em : EntropiesMap), List.Chain' (fun a b => compD a.1 b.1) em →
      ∀ (hne : em ≠ []), ∀ e ∈ em, e.1 ≤ (em.getLast hne).1 := by
  intro em
  induction em with
  | nil => intro _ hne; exact absurd rfl hne
  | cons hd rest ih =>
    intro h hne e he
    cases rest with
    | nil =>
      simp at he
      rw [he, List.getLast_singleton]
    | cons hd2 t =>
      have hch := List.chain'_cons.mp h
      rw [List.getLast_cons (by simp : hd2 :: t ≠ [])]
      rcases List.mem_cons.mp he with h' | h'
      · subst h'
        have h2l := ih hch.2 (by simp) hd2 (List.mem_cons_self _ _)
        have hlt : e.1 < hd2.1 := by
          have := hch.1
          simp only [compD] at this
          have hp := EPSILON_pos
          linarith
        linarith
      · exact ih hch.2 (by simp) e h'

/-! ### Invariant of the entropy-map fold -/

theorem EntInv_step (words : List Word) (ws m : Nat) (em : EntropiesMap)
    (hm : m < words.length) (hinv : EntInv words ws m em) :
    EntInv words ws (m + 1)
      (mapInsert (entropyAt words ws m) (words.getD m []) em) := by
  obtain ⟨hchain, hempty, hgroups, hcomplete⟩ := hinv
  have htoList : (words[m]?).toList = [words.getD m []] := by
    rw [List.getElem?_eq_getElem hm]
    rw [List.getD_eq_getElem _ _ hm]
    rfl
  have htake : (words.take m).Sublist (words.take (m + 1)) := by
    rw [List.take_succ]
    exact List.sublist_append_left _ _
  refine ⟨mapInsert_chain _ _ em hchain, ?_, ?_, ?_⟩
  · constructor
    · intro h
      exact absurd h (mapInsert_ne_nil _ _ em)
    · omega
  · intro e he
    rcases mapInsert_mem_structure _ _ em e he with h | h | ⟨g, hg, he2, hb⟩
    · obtain ⟨hne, hsub, i, hi, hhead, hkey⟩ := hgroups e h
      exact ⟨hne, hsub.trans htake, i, by omega, hhead, hkey⟩
    · subst h
      refine ⟨by simp, ?_, m, by omega, by simp, rfl⟩
      rw [List.singleton_sublist, List.take_succ]
      apply List.mem_append_right
      rw [htoList]
      exact List.mem_cons_self _ _
    · obtain ⟨hne, hsub, i, hi, hhead, hkey⟩ := hgroups (e.1, g) hg
      refine ⟨by simp [he2], ?_, i, by omega, ?_, hkey⟩
      · rw [he2, List.take_succ, htoList]
        exact List.Sublist.append hsub (List.Sublist.refl _)
      · rw [he2]
        have hgne : g ≠ [] := hne
        have hh : (g ++ [words.getD m []]).headD [] = g.headD [] := by
          cases g with
          | nil => exact absurd rfl hgne
          | cons a t => simp
        rw [hh]
        exact hhead
  · intro i hi
    by_cases him : i < m
    · obtain ⟨e, he, hmem, hb⟩ := hcomplete i him
      obtain ⟨g', hg', hxg⟩ := mapInsert_persist _ _ (words.getD i []) em e he hmem
      exact ⟨(e.1, g'), hg', hxg, hb⟩
    · have him2 : i = m := by omega
      subst him2
      obtain ⟨e, he, hw2, hb⟩ := mapInsert_new_mem (entropyAt words ws i) (words.getD i []) em
      exact ⟨e, he, hw2, hb⟩

theorem entropiesCore_succ (words : List Word) (ws k : Nat) :
    entropiesCore words ws (k + 1) =
      mapInsert (entropyAt words ws k) (words.getD k []) (entropiesCore words ws k) := by
  unfold entropiesCore
  rw [List.range_succ, List.foldl_append, List.foldl_cons, List.foldl_nil]

theorem entropiesCore_inv (words : List Word) (ws m : Nat) (hm : m ≤ words.length) :
    EntInv words ws m (entropiesCore words ws m) := by
  induction m with
  | zero =>
    refine ⟨List.chain'_nil, by simp [entropiesCore], ?_, ?_⟩
    · intro e he
      simp [entropiesCore] at he
    · intro i hi
      omega
  | succ k ih =>
    rw [entropiesCore_succ]
    exact EntInv_step words ws k _ (by omega) (ih (by omega))

/-! ### Bridging the ranker's exception layer -/

theorem getD_length_le (words : List Word) (ws : Nat) (hlen : ∀ w ∈ words, w.length = ws)
    (i : Nat) : (words.getD i []).length ≤ ws := by
  by_cases hi : i < words.length
  · rw [List.getD_eq_getElem _ _ hi]
    exact le_of_eq (hlen _ (List.getElem_mem hi))
  · rw [List.getD_eq_default _ _ (by omega)]
    simp

theorem countsAt_eq_core (words : List Word) (ws i : Nat) (hws : ws ≤ 8)
    (hlen : ∀ w ∈ words, w.length = ws) :
    countsAt words ws i = some (countsAtCore words ws i) := by
  unfold countsAt countsAtCore
  apply foldlM_eq_foldl
  intro cs j hj
  by_cases hij : i ≠ j
  · rw [if_pos hij, if_pos hij,
      GeneratePattern_eq_core _ _ ws hws (getD_length_le words ws hlen i)]
    rfl
  · rw [if_neg hij, if_neg hij]
    rfl

theorem CalculateEntropies_eq_core (words : List Word) (ws : Nat) (hws : ws ≤ 8)
    (hlen : ∀ w ∈ words, w.length = ws) :
    CalculateEntropies words ws = some (entropiesCore words ws words.length) := by
  unfold CalculateEntropies entropiesCore
  apply foldlM_eq_foldl
  intro em i hi
  rw [countsAt_eq_core words ws i hws hlen]
  rfl

theorem GetNextBestGuess_eq (words : List Word) (ws : Nat) (hws : ws ≤ 8)
    (hlen : ∀ w ∈ words, w.length = ws) (hne : words ≠ []) :
    GetNextBestGuess words ws =
      some (((entropiesCore words ws words.length).getLastD (0, [])).2.headD []) := by
  have hinv := entropiesCore_inv words ws words.length le_rfl
  have hnonempty : entropiesCore words ws words.length ≠ [] := by
    intro h
    exact hne (List.length_eq_zero.mp (hinv.2.1.mp h))
  unfold GetNextBestGuess
  rw [CalculateEntropies_eq_core words ws hws hlen]
  show (if (entropiesCore words ws words.length).isEmpty then _ else _) = _
  rw [if_neg (by simp [hnonempty])]
  rfl

theorem GNBG_mem (words : List Word) (ws : Nat) (hws : ws ≤ 8)
    (hlen : ∀ w ∈ words, w.length = ws) (hne : words ≠ []) :
    ∃ g, GetNextBestGuess words ws = some g ∧ g ∈ words := by
  rw [GetNextBestGuess_eq words ws hws hlen hne]
  refine ⟨_, rfl, ?_⟩
  have hinv := entropiesCore_inv words ws words.length le_rfl
  have hnonempty : entropiesCore words ws words.length ≠ [] := by
    intro h
    exact hne (List.length_eq_zero.mp (hinv.2.1.mp h))
  have hlastmem : (entropiesCore words ws words.length).getLastD (0, []) ∈
      entropiesCore words ws words.length := by
    rw [List.getLastD_eq_getLast?, List.getLast?_eq_getLast _ hnonempty]
    exact List.getLast_mem hnonempty
  obtain ⟨hne2, hsub, i, hi, hhead, hkey⟩ := hinv.2.2.1 _ hlastmem
  rw [List.take_length] at hsub
  apply hsub.subset
  cases hcase : ((entropiesCore words ws words.length).getLastD (0, [])).2 with
  | nil => exact absurd hcase hne2
  | cons a t =>
    simp

/-! ### Self-play: termination and success characterization -/

theorem playLoop_some (ws : Nat) (hws : ws ≤ 8) (target : Word)
    (htl : target.length = ws) :
    ∀ (fuel : Nat) (vw : List Word) (guess : Word),
      (∀ w ∈ vw, w.length = ws) → target ∈ vw →
      ∃ r, playLoop ws target fuel vw guess = some r ∧
        ∀ g', r = some g' → g' = target ∧
          GeneratePattern g' target ws = some (allGreenP ws) := by
  intro fuel
  induction fuel with
  | zero =>
    intro vw guess hlen hmem
    exact ⟨none, rfl, fun g' h => by cases h⟩
  | succ n ih =>
    intro vw guess hlen hmem
    by_cases hg : guess = target
    · exact ⟨none, by simp only [playLoop, if_pos hg], fun g' h => by cases h⟩
    · have hvne : vw ≠ [] := by
        intro h
        rw [h] at hmem
        cases hmem
      obtain ⟨g, hgnb, hgmem⟩ := GNBG_mem vw ws hws hlen hvne
      have hglen : g.length = ws := hlen g hgmem
      by_cases hpat : GPcore g target ws ≠ allGreenP ws
      · have hstep : playLoop ws target (n + 1) vw guess =
            playLoop ws target n (filterCore (GPcore g target ws) g vw ws) g := by
          simp only [playLoop, if_neg hg]
          rw [hgnb]
          show GeneratePattern g target ws >>= _ = _
          rw [GeneratePattern_eq_core g target ws hws (by omega)]
          show (if GPcore g target ws ≠ allGreenP ws then _ else _) = _
          rw [if_pos hpat]
          show FilterAllWordsBestOnPattern (GPcore g target ws) g vw ws >>= _ = _
          rw [Filter_eq_core _ g vw ws hws (by omega)]
          rfl
        rw [hstep]
        apply ih
        · intro w hw
          exact hlen w ((List.filter_sublist vw).subset hw)
        · unfold filterCore
          rw [List.mem_filter]
          exact ⟨hmem, by simp⟩
      · push_neg at hpat
        have hstep : playLoop ws target (n + 1) vw guess = some (some g) := by
          simp only [playLoop, if_neg hg]
          rw [hgnb]
          show GeneratePattern g target ws >>= _ = _
          rw [GeneratePattern_eq_core g target ws hws (by omega)]
          show (if GPcore g target ws ≠ allGreenP ws then _ else _) = _
          rw [if_neg (by simp [hpat])]
          rfl
        refine ⟨some g, hstep, ?_⟩
        intro g' hg'
        have hgg : g' = g := (Option.some.inj hg').symm
        subst hgg
        have heq := GPcore_all_green_imp g' target ws hws hglen htl hpat
        refine ⟨heq, ?_⟩
        rw [GeneratePattern_eq_core g' target ws hws (by omega), hpat]

/-- C3: for any dictionary of words of length `wordSize` (word size 3 to 8)
and any hidden target drawn from it, self-play runs to completion with no
exception or failed assertion within the structural budget of
`wordSize + 1` guess rounds (the loop bound built into `PlayRandomGame`),
and when it reports success the reported winning guess produced the all-Green
feedback pattern and equals the hidden target; exhausting the budget (or the
redundant early exit on an already-correct previous guess) reports failure
(`none`). -/
theorem c3_self_play_terminates (ws : Nat) (dict : List Word) (target : Word)
    (hws3 : 3 ≤ ws) (hws : ws ≤ 8) (hlen : ∀ w ∈ dict, w.length = ws)
    (hmem : target ∈ dict) :
    ∃ r, PlayRandomGame ws dict target = some r ∧
      ∀ g', r = some g' → g' = target ∧
        GeneratePattern g' target ws = some (allGreenP ws) := by
  unfold PlayRandomGame
  exact playLoop_some ws hws target (hlen target hmem) (ws + 1) dict [] hlen hmem

/-- Witness for C3 on a concrete dictionary and target. -/
theorem c3_self_play_terminates_witness :
    ∃ r, PlayRandomGame 3 ["CAT".toList, "DOG".toList] "CAT".toList = some r ∧
      ∀ g', r = some g' → g' = "CAT".toList ∧
        GeneratePattern g' "CAT".toList 3 = some (allGreenP 3) :=
  c3_self_play_terminates 3 ["CAT".toList, "DOG".toList] "CAT".toList (by decide) (by decide)
    (by decide) (by decide)

/-! ### The ranker returns a maximal-entropy word -/

/-- C4: for every nonempty candidate list (of words of the configured length,
word size at most 8), `GetNextBestGuess` succeeds and returns a candidate
`g = vw[i0]` whose entropy is maximal up to the comparator tolerance: no
candidate's entropy exceeds `g`'s by more than `EPSILON`.  Ties are broken by
returning the first word inserted into the maximal-entropy group: `g` is the
head of the last (maximal-key) group of the entropy map, that group lists its
members in insertion order (a sublist of the candidate order), and its key is
exactly `g`'s own entropy.  For a single-candidate list, where no
entropy comparison is possible, the candidate itself is returned. -/
theorem c4_best_guess_max_entropy (ws : Nat) (vw : List Word) (hws : ws ≤ 8)
    (hlen : ∀ w ∈ vw, w.length = ws) (hne : vw ≠ []) :
    ∃ g, GetNextBestGuess vw ws = some g ∧ g ∈ vw ∧
      (∃ i0, i0 < vw.length ∧ g = vw.getD i0 [] ∧
        (∀ j, j < vw.length → entropyAt vw ws j ≤ entropyAt vw ws i0 + EPSILON) ∧
        (∃ em k grp, CalculateEntropies vw ws = some em ∧ em ≠ [] ∧
          em.getLastD (0, []) = (k, grp) ∧ grp ≠ [] ∧ grp.Sublist vw ∧
          g = grp.headD [] ∧ k = entropyAt vw ws i0)) ∧
      (vw.length = 1 → g = vw.headD []) := by
  have hinv := entropiesCore_inv vw ws vw.length le_rfl
  have hnonempty : entropiesCore vw ws vw.length ≠ [] := by
    intro h
    exact hne (List.length_eq_zero.mp (hinv.2.1.mp h))
  have hlastmem : (entropiesCore vw ws vw.length).getLastD (0, []) ∈
      entropiesCore vw ws vw.length := by
    rw [List.getLastD_eq_getLast?, List.getLast?_eq_getLast _ hnonempty]
    exact List.getLast_mem hnonempty
  obtain ⟨hne2, hsub, i0, hi0, hhead, hkey⟩ := hinv.2.2.1 _ hlastmem
  rw [List.take_length] at hsub
  have hlg : (entropiesCore vw ws vw.length).getLastD (0, []) =
      (entropiesCore vw ws vw.length).getLast hnonempty := by
    rw [List.getLastD_eq_getLast?, List.getLast?_eq_getLast _ hnonempty]
    rfl
  have hgm : ((entropiesCore vw ws vw.length).getLastD (0, [])).2.headD [] ∈ vw := by
    apply hsub.subset
    cases hcase : ((entropiesCore vw ws vw.length).getLastD (0, [])).2 with
    | nil => exact absurd hcase hne2
    | cons a t => simp
  refine ⟨((entropiesCore vw ws vw.length).getLastD (0, [])).2.headD [],
    GetNextBestGuess_eq vw ws hws hlen hne, hgm, ?_, ?_⟩
  · refine ⟨i0, hi0, hhead, ?_, ?_⟩
    · intro j hj
      obtain ⟨e, he, hmem, hb⟩ := hinv.2.2.2 j hj
      have hle : e.1 ≤ ((entropiesCore vw ws vw.length).getLastD (0, [])).1 := by
        rw [hlg]
        exact chain_le_getLast _ hinv.1 hnonempty e he
      have habs := abs_le.mp hb
      rw [← hkey]
      linarith [habs.2]
    · exact ⟨entropiesCore vw ws vw.length,
        ((entropiesCore vw ws vw.length).getLastD (0, [])).1,
        ((entropiesCore vw ws vw.length).getLastD (0, [])).2,
        CalculateEntropies_eq_core vw ws hws hlen, hnonempty, rfl, hne2, hsub, rfl, hkey⟩
  · intro hlen1
    cases vw with
    | nil => simp at hlen1
    | cons a t =>
      have ht : t = [] := by
        simp only [List.length_cons] at hlen1
        exact List.length_eq_zero.mp (by omega)
      subst ht
      have hg1 := List.mem_singleton.mp hgm
      rw [hg1]
      rfl

/-- Witness for C4 on a concrete candidate list. -/
theorem c4_best_guess_max_entropy_witness :
    ∃ g, GetNextBestGuess ["CAT".toList, "DOG".toList] 3 = some g ∧
      g ∈ ["CAT".toList, "DOG".toList] ∧
      (∃ i0, i0 < (["CAT".toList, "DOG".toList] : List Word).length ∧
        g = (["CAT".toList, "DOG".toList] : List Word).getD i0 [] ∧
        (∀ j, j < (["CAT".toList, "DOG".toList] : List Word).length →
          entropyAt ["CAT".toList, "DOG".toList] 3 j ≤
            entropyAt ["CAT".toList, "DOG".toList] 3 i0 + EPSILON) ∧
        (∃ em k grp, CalculateEntropies ["CAT".toList, "DOG".toList] 3 = some em ∧ em ≠ [] ∧
          em.getLastD (0, []) = (k, grp) ∧ grp ≠ [] ∧
          grp.Sublist ["CAT".toList, "DOG".toList] ∧
          g = grp.headD [] ∧ k = entropyAt ["CAT".toList, "DOG".toList] 3 i0)) ∧
      ((["CAT".toList, "DOG".toList] : List Word).length = 1 →
        g = (["CAT".toList, "DOG".toList] : List Word).headD []) :=
  c4_best_guess_max_entropy 3 ["CAT".toList, "DOG".toList] (by decide) (by decide) (by decide)

/-! ### Interactive mode: feedback collection and the quit/remove paths -/

theorem tokColor_lt (s : String) :
    (if s = "gn" then Green else if s = "y" then Yellow else Gray) < 4 := by
  by_cases h1 : s = "gn"
  · rw [if_pos h1]
    decide
  · rw [if_neg h1]
    by_cases h2 : s = "y"
    · rw [if_pos h2]
      decide
    · rw [if_neg h2]
      decide

theorem promptPatterns_quit (ws : Nat) (q : String) (hq : q = "quit" ∨ q = "remove") :
    ∀ (toks : List String) (pats rest : List String),
      (∀ t ∈ toks, t = "gn" ∨ t = "y" ∨ t = "gr") →
      pats.length + toks.length < ws →
      promptPatterns ws (toks ++ q :: rest) pats = pats ++ toks := by
  intro toks
  induction toks with
  | nil =>
    intro pats rest htoks hlen
    show promptPatterns ws (q :: rest) pats = pats ++ []
    unfold promptPatterns
    rw [if_pos (by simp at hlen; omega), if_pos hq]
    simp
  | cons t ts ih =>
    intro pats rest htoks hlen
    have ht := htoks t (List.mem_cons_self t ts)
    show promptPatterns ws (t :: (ts ++ q :: rest)) pats = pats ++ t :: ts
    unfold promptPatterns
    rw [if_pos (by simp at hlen ⊢; omega)]
    rw [if_neg (by rcases ht with h | h | h <;> subst h <;> decide)]
    rw [if_neg (by rcases ht with h | h | h <;> simp [h])]
    rw [ih (pats ++ [t]) rest (fun x hx => htoks x (List.mem_cons_of_mem t hx))
      (by simp at hlen ⊢; omega)]
    simp

theorem buildPattern_eq_core (ws : Nat) (pats : List String) (hws : ws ≤ 8)
    (hlen : pats.length ≤ ws) :
    buildPattern ws pats = some (buildPatternCore ws pats pats.length) := by
  unfold buildPattern buildPatternCore
  apply foldlM_eq_foldl
  intro p i hi
  have hi' : i < ws := lt_of_lt_of_le (List.mem_range.mp hi) hlen
  rw [SetColor_some _ _ _ (by omega) (by omega)]
  have htn : ((ws : Int) - 1 - (i : Int)).toNat = ws - 1 - i := by omega
  rw [htn]

theorem buildPatternCore_succ (ws : Nat) (pats : List String) (k : Nat) :
    buildPatternCore ws pats (k + 1) =
      setC (buildPatternCore ws pats k) (ws - 1 - k)
        (if pats.getD k "" = "gn" then Green
         else if pats.getD k "" = "y" then Yellow
         else Gray) := by
  unfold buildPatternCore
  rw [List.range_succ, List.foldl_append, List.foldl_cons, List.foldl_nil]

theorem buildPatternCore_field0 (ws : Nat) (pats : List String) (m : Nat) (hm : m < ws) :
    getC (buildPatternCore ws pats m) 0 = Gray := by
  induction m with
  | zero =>
    unfold buildPatternCore
    simp [getC_eq, Gray]
  | succ k ih =>
    rw [buildPatternCore_succ,
      setC_getC_other _ _ _ _ (by omega) (by omega) (tokColor_lt _)]
    exact ih (by omega)

theorem buildPartial_ne_allGreen (ws : Nat) (pats : List String) (hlt : pats.length < ws) :
    buildPatternCore ws pats pats.length ≠ allGreenP ws := by
  intro h
  have h0 := buildPatternCore_field0 ws pats pats.length hlt
  rw [h, allGreenP_field ws 0 (by omega)] at h0
  exact absurd h0 (by decide)

theorem GNBG_singleton (w : Word) (ws : Nat) (hws : ws ≤ 8) (hwl : w.length = ws) :
    GetNextBestGuess [w] ws = some w := by
  rw [GetNextBestGuess_eq [w] ws hws
    (by intro x hx; rw [List.mem_singleton.mp hx]; exact hwl) (by simp)]
  have h1 : ([w] : List Word).length = 0 + 1 := rfl
  rw [h1, entropiesCore_succ]
  have h2 : entropiesCore [w] ws 0 = [] := rfl
  rw [h2]
  simp [mapInsert]

/-- C5 (counterexample): with wordSize 5, after one valid feedback token
`"gn"` has been collected, receiving `"quit"` does NOT abort without
filtering: `promptPatterns` returns the partial token list `["gn"]`, which is
nonempty, so the feedback block builds the partial pattern (C Green, rest
Gray) and filters the candidate set, shrinking `[CRANE, COUGH]` to `[COUGH]`. -/
theorem c5_counterexample :
    processFeedback 5 ["gn", "quit"] "CRANE".toList ["CRANE".toList, "COUGH".toList] =
      some (["COUGH".toList], "COUGH".toList) ∧
    (["COUGH".toList] : List Word) ≠ ["CRANE".toList, "COUGH".toList] := by
  constructor
  · have hp : promptPatterns 5 ["gn", "quit"] [] = ["gn"] := by decide
    have hb : buildPattern 5 ["gn"] = some 512 := by decide
    have hf : FilterAllWordsBestOnPattern 512 "CRANE".toList
        ["CRANE".toList, "COUGH".toList] 5 = some ["COUGH".toList] := by decide
    have hg : GetNextBestGuess ["COUGH".toList] 5 = some "COUGH".toList :=
      GNBG_singleton "COUGH".toList 5 (by decide) (by decide)
    unfold processFeedback
    show (if (promptPatterns 5 ["gn", "quit"] []).isEmpty then _ else _) = _
    rw [hp, if_neg (by decide), hb]
    simp only [Option.bind_eq_bind, Option.some_bind]
    rw [if_pos (by decide : (512 : Pattern) ≠ allGreenP 5), hf]
    simp only [Option.bind_eq_bind, Option.some_bind]
    rw [hg]
    simp only [Option.bind_eq_bind, Option.some_bind]
    rfl
  · decide

/-- C5 (amended): receiving `"quit"` or `"remove"` while collecting per-letter
feedback stops the collection with the tokens gathered so far; the session
then returns to awaiting a command *without filtering* exactly when zero valid
tokens had been entered, while with at least one valid token already entered
the partial pattern is built and the candidate set IS filtered by it (the
partial pattern cannot be all-Green, so the win branch is not taken). -/
theorem c5_quit_aborts_without_filtering (ws : Nat) (hws : ws ≤ 8) (q : String)
    (hq : q = "quit" ∨ q = "remove") (toks rest : List String)
    (htoks : ∀ t ∈ toks, t = "gn" ∨ t = "y" ∨ t = "gr") (hlen : toks.length < ws)
    (lastGuess : Word) (hlg : lastGuess.length ≤ ws) (vw : List Word) :
    promptPatterns ws (toks ++ q :: rest) [] = toks ∧
    (toks = [] → processFeedback ws (toks ++ q :: rest) lastGuess vw = some (vw, lastGuess)) ∧
    (toks ≠ [] → ∀ res, processFeedback ws (toks ++ q :: rest) lastGuess vw = some res →
      res.1 = filterCore (buildPatternCore ws toks toks.length) lastGuess vw ws) := by
  have hp : promptPatterns ws (toks ++ q :: rest) [] = [] ++ toks :=
    promptPatterns_quit ws q hq toks [] rest htoks (by simpa using hlen)
  rw [List.nil_append] at hp
  refine ⟨hp, ?_, ?_⟩
  · intro ht
    subst ht
    unfold processFeedback
    show (if (promptPatterns ws ([] ++ q :: rest) []).isEmpty then _ else _) = _
    rw [hp]
    rfl
  · intro ht res hres
    have heq : processFeedback ws (toks ++ q :: rest) lastGuess vw =
        (GetNextBestGuess (filterCore (buildPatternCore ws toks toks.length)
            lastGuess vw ws) ws).bind
          (fun g' => some (filterCore (buildPatternCore ws toks toks.length)
            lastGuess vw ws, g')) := by
      unfold processFeedback
      show (if (promptPatterns ws (toks ++ q :: rest) []).isEmpty then _ else _) = _
      rw [hp]
      rw [if_neg (by cases toks with | nil => exact absurd rfl ht | cons a t => simp)]
      rw [buildPattern_eq_core ws toks hws (by omega)]
      show (if buildPatternCore ws toks toks.length ≠ allGreenP ws then _ else _) = _
      rw [if_pos (buildPartial_ne_allGreen ws toks hlen)]
      show FilterAllWordsBestOnPattern _ _ _ _ >>= _ = _
      rw [Filter_eq_core _ lastGuess vw ws hws hlg]
      rfl
    rw [heq] at hres
    cases hg : GetNextBestGuess (filterCore (buildPatternCore ws toks toks.length)
        lastGuess vw ws) ws with
    | none =>
      rw [hg] at hres
      simp at hres
    | some g2 =>
      rw [hg] at hres
      have h2 : some ((filterCore (buildPatternCore ws toks toks.length)
          lastGuess vw ws), g2) = some res := hres
      rw [← Option.some.inj h2]

/-- Witness for the amended C5 at the counterexample's concrete session. -/
theorem c5_quit_aborts_without_filtering_witness :
    promptPatterns 5 (["gn"] ++ "quit" :: []) [] = ["gn"] ∧
    ((["gn"] : List String) = [] →
      processFeedback 5 (["gn"] ++ "quit" :: []) "CRANE".toList
        ["CRANE".toList, "COUGH".toList] =
        some (["CRANE".toList, "COUGH".toList], "CRANE".toList)) ∧
    ((["gn"] : List String) ≠ [] →
      ∀ res, processFeedback 5 (["gn"] ++ "quit" :: []) "CRANE".toList
        ["CRANE".toList, "COUGH".toList] = some res →
      res.1 = filterCore (buildPatternCore 5 ["gn"] (["gn"] : List String).length)
        "CRANE".toList ["CRANE".toList, "COUGH".toList] 5) :=
  c5_quit_aborts_without_filtering 5 (by decide) "quit" (Or.inl rfl) ["gn"] []
    (by decide) (by decide) "CRANE".toList (by decide) ["CRANE".toList, "COUGH".toList]
